import Mathlib

/-!
Verification of the in-memory key-value database with nested transactions
(file main.py). The Python code is shallowly embedded: dictionaries become
association lists (first-match lookup, in-place update, append for fresh
keys, matching insertion-ordered dict semantics), Python string truthiness
becomes a non-emptiness test, and the one failure point of the code (an
unguarded dictionary subtraction that can raise KeyError) is modelled with
Option, where none stands for the uncaught exception.
-/

namespace IMDBModel

/-! ## Python string primitives: strip, upper, split -/

/-- The whitespace characters recognised by Python str.strip and str.split. -/
def isPySpace (c : Char) : Bool :=
  c = ' ' || c = '\t' || c = '\n' || c = '\r' || c = Char.ofNat 11 || c = Char.ofNat 12

/-- Python str.strip(): drop leading and trailing whitespace. -/
def pyStrip (l : List Char) : List Char :=
  ((l.dropWhile isPySpace).reverse.dropWhile isPySpace).reverse

/-- Python str.upper(), restricted to the ASCII commands the program uses. -/
def pyUpper (l : List Char) : List Char :=
  l.map Char.toUpper

theorem length_dropWhile_le (p : Char → Bool) (l : List Char) :
    (l.dropWhile p).length ≤ l.length := by
  induction l with
  | nil => simp [List.dropWhile]
  | cons c rest ih =>
    simp only [List.dropWhile]
    split
    · exact Nat.le_succ_of_le ih
    · exact Nat.le_refl _

/-- Worker for pySplit, structurally recursive on a fuel argument; every
step consumes at least one character, so fuel = length + 1 never runs out. -/
def pySplitGo : Nat → List Char → List (List Char)
  | 0, _ => []
  | fuel + 1, l =>
    match l.dropWhile isPySpace with
    | [] => []
    | c :: rest =>
      (c :: rest.takeWhile (fun d => !isPySpace d)) ::
        pySplitGo fuel (rest.dropWhile (fun d => !isPySpace d))

/-- Python str.split() with no arguments: split on whitespace runs,
discarding empty pieces. -/
def pySplit (l : List Char) : List (List Char) :=
  pySplitGo (l.length + 1) l

/-- Worker for pySplitN, fuelled like pySplitGo. -/
def pySplitNGo : Nat → List Char → Nat → List (List Char)
  | 0, _, _ => []
  | fuel + 1, l, n =>
    match l.dropWhile isPySpace with
    | [] => []
    | c :: rest =>
      match n with
      | 0 => [c :: rest]
      | m + 1 =>
        (c :: rest.takeWhile (fun d => !isPySpace d)) ::
          pySplitNGo fuel (rest.dropWhile (fun d => !isPySpace d)) m

/-- Python str.split(None, n): at most n splits; once the budget is spent
the remainder (leading whitespace removed) is the final piece, verbatim. -/
def pySplitN (l : List Char) (n : Nat) : List (List Char) :=
  pySplitNGo (l.length + 1) l n

/-- Python string truthiness: a string is truthy iff it is non-empty. -/
def pyTruthy (s : String) : Bool :=
  s ≠ ""

/-! ## Python dict as an association list

Lookup reads the first matching pair, update rewrites the first matching
pair in place (appending when the key is fresh), erase removes the first
matching pair: exactly the observable behaviour of a Python dict. -/

def alookup {α : Type} : List (String × α) → String → Option α
  | [], _ => none
  | (k', v) :: rest, k => if k' = k then some v else alookup rest k

def aupdate {α : Type} : List (String × α) → String → α → List (String × α)
  | [], k, v => [(k, v)]
  | (k', v') :: rest, k, v =>
    if k' = k then (k, v) :: rest else (k', v') :: aupdate rest k v

def aerase {α : Type} : List (String × α) → String → List (String × α)
  | [], _ => []
  | (k', v') :: rest, k => if k' = k then rest else (k', v') :: aerase rest k

/-! ## KeyValueStore: db and counts (methods get, set, delete, count) -/

/-- IMDB.get: db.get(key, NULL). -/
def pyGet (db : List (String × String)) (k : String) : String :=
  (alookup db k).getD "NULL"

/-- IMDB.count: counts.get(value, 0). -/
def countsGet (counts : List (String × Int)) (v : String) : Int :=
  (alookup counts v).getD 0

/-- The increment step of IMDB.set: if value in counts then counts[value] += 1
else counts[value] = 1. -/
def bumpCount (counts : List (String × Int)) (v : String) : List (String × Int) :=
  match alookup counts v with
  | some n => aupdate counts v (n + 1)
  | none => counts ++ [(v, 1)]

/-- IMDB.set. The guard `if self.db.get(key):` is Python truthiness, so the
decrement of the old value is skipped when the old value is the empty
string. The decrement `self.counts[self.db[key]] -= 1` raises KeyError when
the old value is missing from counts; that failure is the none result. -/
def storeSet (db : List (String × String)) (counts : List (String × Int))
    (k v : String) : Option (List (String × String) × List (String × Int)) :=
  match alookup db k with
  | some old =>
    if pyTruthy old then
      match alookup counts old with
      | some n => some (aupdate db k v, bumpCount (aupdate counts old (n - 1)) v)
      | none => none
    else some (aupdate db k v, bumpCount counts v)
  | none => some (aupdate db k v, bumpCount counts v)

/-- IMDB.delete: decrement the count of the value the key holds (when that
value is present in counts), then remove the key if present. Never fails. -/
def storeDelete (db : List (String × String)) (counts : List (String × Int))
    (k : String) : List (String × String) × List (String × Int) :=
  let counts' := match alookup db k with
    | some v =>
      match alookup counts v with
      | some n => aupdate counts v (n - 1)
      | none => counts
    | none => counts
  let db' := match alookup db k with
    | some _ => aerase db k
    | none => db
  (db', counts')

/-! ## Events and transactions -/

/-- A mutation event recorded in an open transaction:
the tuples (SET, key, value) and (DELETE, key) of the Python code. -/
inductive Event : Type where
  | set (k v : String) : Event
  | del (k : String) : Event
deriving DecidableEq

def eventKey : Event → String
  | .set k _ => k
  | .del k => k

/-- The whole database state: the END flag (self.state), the committed
entries (self.db), the open transaction stack (self.transactions, each
transaction being its event list in append order), and the value-count
index (self.counts). -/
structure IMDB : Type where
  ended : Bool
  db : List (String × String)
  transactions : List (List Event)
  counts : List (String × Int)
deriving DecidableEq

def initState : IMDB := ⟨false, [], [], []⟩

/-- Transaction.add_event on latest_transaction(): append an event to the
innermost (last) open transaction log. -/
def addEventLast : List (List Event) → Event → List (List Event)
  | [], _ => []
  | [t], e => [t ++ [e]]
  | t :: ts, e => t :: addEventLast ts e

/-! ## Resolution: txn_get and txn_count -/

/-- Scan a list of events front to back for the first one touching the key;
some none means a DELETE was found, some (some v) a SET. Applied to a
reversed event list this is the inner loop of IMDB.txn_get. -/
def scanEvents (k : String) : List Event → Option (Option String)
  | [] => none
  | .del k' :: rest => if k' = k then some none else scanEvents k rest
  | .set k' v :: rest => if k' = k then some (some v) else scanEvents k rest

/-- Scan a stack of transactions (given innermost first, each with events
reversed): the outer loop of IMDB.txn_get. -/
def scanStack (k : String) : List (List Event) → Option (Option String)
  | [] => none
  | t :: ts =>
    match scanEvents k t.reverse with
    | some r => some r
    | none => scanStack k ts

/-- IMDB.txn_get: walk transactions from latest to earliest, events from
latest to earliest; a DELETE of the key yields none (Python None), a SET
yields its value, and exhausting the stack falls back to get(key). -/
def txn_get (s : IMDB) (k : String) : Option String :=
  match scanStack k s.transactions.reverse with
  | some r => r
  | none => some (pyGet s.db k)

/-- One event step of IMDB.txn_count: the running count together with the
tracked key set (the Python local `keys`). -/
def countStep (v : String) (acc : Int × List String) (e : Event) : Int × List String :=
  match e with
  | .set k v2 =>
    if k ∈ acc.2 ∧ v2 ≠ v then (acc.1 - 1, acc.2.erase k)
    else if k ∉ acc.2 ∧ v2 = v then (acc.1 + 1, k :: acc.2)
    else acc
  | .del k => if k ∈ acc.2 then (acc.1 - 1, acc.2.erase k) else acc

/-- IMDB.txn_count: start from the committed count and walk every event of
every transaction, outermost transaction first, append order within each. -/
def txn_count (s : IMDB) (v : String) : Int :=
  (s.transactions.foldl (fun acc t => t.foldl (countStep v) acc)
    (countsGet s.counts v, [])).1

/-! ## Commit -/

/-- One event step of IMDB.apply_transactions: writes the db directly
(SET assigns, DELETE removes when present) and never touches counts. -/
def applyEvent (db : List (String × String)) : Event → List (String × String)
  | .set k v => aupdate db k v
  | .del k =>
    match alookup db k with
    | some _ => aerase db k
    | none => db

/-- IMDB.apply_transactions: apply every event of every transaction,
outermost first, append order within each, to the db alone. -/
def apply_transactions (db : List (String × String))
    (txns : List (List Event)) : List (String × String) :=
  txns.foldl (fun d t => t.foldl applyEvent d) db

/-! ## The command dispatcher (IMDB.transition) and run loop (IMDB.run) -/

/-- IMDB.transition: parse one command line and execute it. The result is
the new state together with the lines printed; none models an uncaught
Python exception (the KeyError reachable through storeSet). The branch
order, the strip/upper/startswith tests, and the split flavours (split()
for GET, DELETE and COUNT, split(None, 2) for SET) mirror the code. -/
def transition (s : IMDB) (c : String) : Option (IMDB × List String) :=
  let u := pyUpper (pyStrip c.toList)
  if u = "END".toList then
    some ({ s with ended := true }, [])
  else if "GET".toList.isPrefixOf u then
    match pySplit (pyStrip c.toList) with
    | [_, kcs] =>
      let k := String.mk kcs
      if s.transactions.isEmpty then
        some (s, [">>> " ++ pyGet s.db k])
      else
        match txn_get s k with
        | some v => if pyTruthy v then some (s, [">>> " ++ v]) else some (s, [">>> NULL"])
        | none => some (s, [">>> NULL"])
    | _ => some (s, [">>> Invalid GET command: \x27" ++ c ++ "\x27. Expected format: \x27GET <key>\x27"])
  else if "SET".toList.isPrefixOf u then
    match pySplitN (pyStrip c.toList) 2 with
    | [_, kcs, vcs] =>
      if s.transactions.isEmpty then
        match storeSet s.db s.counts (String.mk kcs) (String.mk vcs) with
        | some (db', counts') => some ({ s with db := db', counts := counts' }, [])
        | none => none
      else
        let txns' := addEventLast s.transactions (.set (String.mk kcs) (String.mk vcs))
        some ({ s with transactions := txns' }, [])
    | _ => some (s, [">>> Invalid SET command: \x27" ++ c ++ "\x27. Expected format: \x27SET <key> <value>\x27"])
  else if "DELETE".toList.isPrefixOf u then
    match pySplit c.toList with
    | [_, kcs] =>
      let k := String.mk kcs
      if s.transactions.isEmpty then
        let p := storeDelete s.db s.counts k
        some ({ s with db := p.1, counts := p.2 }, [])
      else
        some ({ s with transactions := addEventLast s.transactions (.del k) }, [])
    | _ => some (s, [">>> Invalid DELETE command: \x27" ++ c ++ "\x27. Expected format: \x27DELETE <key>\x27"])
  else if "COUNT".toList.isPrefixOf u then
    match pySplit (pyStrip c.toList) with
    | [_, vcs] =>
      let v := String.mk vcs
      if s.transactions.isEmpty then
        some (s, [">>> " ++ toString (countsGet s.counts v)])
      else
        some (s, [">>> " ++ toString (txn_count s v)])
    | _ => some (s, [">>> Invalid COUNT command: \x27" ++ c ++ "\x27. Expected format: \x27COUNT <value>\x27"])
  else if u = "BEGIN".toList then
    some ({ s with transactions := s.transactions ++ [[]] }, [])
  else if u = "ROLLBACK".toList then
    if s.transactions.isEmpty then
      some (s, [">>> TRANSACTION NOT FOUND."])
    else
      some ({ s with transactions := s.transactions.dropLast }, [])
  else if u = "COMMIT".toList then
    some ({ s with db := apply_transactions s.db s.transactions, transactions := [] }, [])
  else
    some (s, [">>> Unknown command: \x27" ++ c ++ "\x27"])

/-- IMDB.run on a finite script: feed commands one by one, stopping once
the END flag is raised; none reports the uncaught exception. -/
def runCmds : IMDB → List String → Option (IMDB × List String)
  | s, [] => some (s, [])
  | s, c :: cs =>
    if s.ended then some (s, [])
    else
      match transition s c with
      | none => none
      | some (s', out) =>
        match runCmds s' cs with
        | none => none
        | some (s'', outs) => some (s'', out ++ outs)

/-- The printed lines of a run, when it does not crash. -/
def outputsOf (s : IMDB) (cs : List String) : Option (List String) :=
  (runCmds s cs).map (fun p => p.2)

/-! ## Concrete runs -/

/-- C1: COMMIT does not produce the store that direct application of the
logged events through set/delete would produce. After BEGIN; SET a 1;
COMMIT the entries hold a = 1 and the stack is empty, but the valueCounts
index was never updated (count of value 1 is 0), whereas the direct SET a 1
yields count 1. The code contradicts the specified commit (apply every
event via set/delete), and the stale index later crashes the process. -/
theorem commit_leaves_counts_stale :
    (runCmds initState ["BEGIN", "SET a 1", "COMMIT"]).map
        (fun p => (alookup p.1.db "a", countsGet p.1.counts "1", p.1.transactions))
      = some (some "1", 0, []) ∧
    (runCmds initState ["SET a 1"]).map
        (fun p => (alookup p.1.db "a", countsGet p.1.counts "1"))
      = some (some "1", 1) ∧
    (0 : Int) ≠ 1 := by
  refine ⟨rfl, rfl, by decide⟩

/-- C2, counterexample: SET a 1; BEGIN; DELETE a; COUNT 1 prints 1, not the
claimed 0 — txn_count only decrements for keys its tracked set contains,
and a committed key is never tracked. -/
theorem scenarioC_count_is_one_not_zero :
    outputsOf initState ["SET a 1", "BEGIN", "DELETE a", "COUNT 1"] = some [">>> 1"] ∧
    ([">>> 1"] : List String) ≠ [">>> 0"] := by
  refine ⟨rfl, by decide⟩

/-- C2, amended: the command sequence SET a 1; BEGIN; DELETE a; COUNT 1
yields count 1 (the pending delete of the committed key is not reflected),
and after the subsequent COMMIT, GET a yields NULL. -/
theorem scenarioC_amended :
    outputsOf initState ["SET a 1", "BEGIN", "DELETE a", "COUNT 1", "COMMIT", "GET a"]
      = some [">>> 1", ">>> NULL"] := rfl

/-- C5: the core does not survive every command sequence. After BEGIN;
SET a 1; COMMIT the counts index lacks the committed value, so the direct
SET a 2 evaluates counts[db[key]] -= 1 on a missing key: an uncaught
KeyError (modelled as none) that crashes the process. -/
theorem set_after_commit_crashes :
    runCmds initState ["BEGIN", "SET a 1", "COMMIT", "SET a 2"] = none := rfl

/-- C8, counterexample: the NULL sentinel is not distinct from real values.
SET a NULL stores the string NULL under key a; GET then returns NULL for
the present key a exactly as it does for the absent key b. -/
theorem null_sentinel_collision :
    (runCmds initState ["SET a NULL"]).map (fun p => alookup p.1.db "a")
      = some (some "NULL") ∧
    pyGet [("a", "NULL")] "a" = "NULL" ∧
    pyGet [("a", "NULL")] "b" = "NULL" := by
  refine ⟨rfl, rfl, rfl⟩

/-- C8, amended: get(key) returns the sentinel string NULL exactly when the
key is absent from the entries or the value stored at the key is itself the
string NULL; the sentinel is an ordinary value and can coincide with a
stored one. -/
theorem get_null_iff_absent_or_null_stored (db : List (String × String)) (k : String) :
    pyGet db k = "NULL" ↔ (alookup db k = none ∨ alookup db k = some "NULL") := by
  unfold pyGet
  cases h : alookup db k <;> simp

/-! ## Rollback -/

/-- C9: ROLLBACK with a non-empty transaction stack pops exactly the
innermost log, leaving db and counts (and the outer logs) untouched and
printing nothing; with an empty stack it only prints the user-visible
TRANSACTION NOT FOUND message and changes nothing. -/
theorem rollback_pops_or_reports (s : IMDB) :
    (s.transactions = [] →
      transition s "ROLLBACK" = some (s, [">>> TRANSACTION NOT FOUND."])) ∧
    (s.transactions ≠ [] →
      transition s "ROLLBACK" = some ({ s with transactions := s.transactions.dropLast }, [])) := by
  have hred : transition s "ROLLBACK" =
      if s.transactions.isEmpty then some (s, [">>> TRANSACTION NOT FOUND."])
      else some ({ s with transactions := s.transactions.dropLast }, []) := rfl
  constructor
  · intro h
    rw [hred, h]
    rfl
  · intro h
    rw [hred]
    cases htx : s.transactions with
    | nil => exact absurd htx h
    | cons t ts => rfl

/-- Witness for C9 at concrete states: the empty stack reports, a singleton
stack pops to empty. -/
theorem rollback_pops_or_reports_witness :
    transition initState "ROLLBACK" = some (initState, [">>> TRANSACTION NOT FOUND."]) ∧
    transition ⟨false, [], [[]], []⟩ "ROLLBACK" = some (⟨false, [], [], []⟩, []) := by
  refine ⟨(rollback_pops_or_reports initState).1 rfl, ?_⟩
  exact (rollback_pops_or_reports ⟨false, [], [[]], []⟩).2 (by decide)

/-! ## Resolution semantics of txn_get -/

/-- An event touches a key when its key component equals it. -/
def touches (k : String) (e : Event) : Bool :=
  eventKey e == k

/-- The result an event dictates for a GET of its key: a SET yields its
value, a DELETE yields none. -/
def interpEvent : Event → Option String
  | .set _ v => some v
  | .del _ => none

/-- Modelled from the words of the specification: the chronologically
latest event across the whole stack touching the key, chronological order
being outermost log first and append order within a log. -/
def latestTouching (k : String) (stack : List (List Event)) : Option Event :=
  stack.flatten.reverse.find? (touches k)

/-- Modelled from the words of the specification: resolveGet. If the latest
event touching the key is a Delete the result is NULL (none), if a Set its
value, and with no touching event the committed store answers. -/
def specResolveGet (stack : List (List Event)) (db : List (String × String))
    (k : String) : Option String :=
  match latestTouching k stack with
  | some (.set _ v) => some v
  | some (.del _) => none
  | none => some (pyGet db k)

theorem scanEvents_eq_find (k : String) (l : List Event) :
    scanEvents k l = (l.find? (touches k)).map interpEvent := by
  induction l with
  | nil => rfl
  | cons e rest ih =>
    cases e with
    | set k' v =>
      by_cases h : k' = k
      · simp [scanEvents, touches, eventKey, h, interpEvent]
      · simp [scanEvents, touches, eventKey, h, ih]
    | del k' =>
      by_cases h : k' = k
      · simp [scanEvents, touches, eventKey, h, interpEvent]
      · simp [scanEvents, touches, eventKey, h, ih]

theorem scanStack_eq_find (k : String) (ts : List (List Event)) :
    scanStack k ts = ((ts.map List.reverse).flatten.find? (touches k)).map interpEvent := by
  induction ts with
  | nil => rfl
  | cons t rest ih =>
    show (match scanEvents k t.reverse with
      | some r => some r
      | none => scanStack k rest) = _
    rw [scanEvents_eq_find, List.map_cons, List.flatten_cons, List.find?_append]
    cases h : t.reverse.find? (touches k) with
    | none => simpa [h] using ih
    | some e => simp [h]

theorem latestTouching_eq (k : String) (stack : List (List Event)) :
    latestTouching k stack = (stack.reverse.map List.reverse).flatten.find? (touches k) := by
  unfold latestTouching
  rw [List.reverse_flatten, List.map_reverse]

/-- C4: txn_get implements the latest-chronological-event semantics. First
conjunct: txn_get coincides with the resolver written from the words of the
specification (a Delete as latest touching event yields NULL, a Set its
value, no touching event defers to the committed store). Second conjunct:
pushing an inner (most recent) log on the stack makes a GET reflect that
log when it touches the key, regardless of mutations in the outer logs. -/
theorem txn_get_latest_event_semantics :
    (∀ (s : IMDB) (k : String), txn_get s k = specResolveGet s.transactions s.db k) ∧
    (∀ (s : IMDB) (t : List Event) (k : String),
      txn_get { s with transactions := s.transactions ++ [t] } k =
        match latestTouching k [t] with
        | some e => interpEvent e
        | none => txn_get s k) := by
  constructor
  · intro s k
    unfold txn_get specResolveGet
    rw [scanStack_eq_find, latestTouching_eq]
    cases h : (s.transactions.reverse.map List.reverse).flatten.find? (touches k) with
    | none => rfl
    | some e => cases e <;> rfl
  · intro s t k
    unfold txn_get
    have hrev : (s.transactions ++ [t]).reverse = t :: s.transactions.reverse := by
      simp
    rw [hrev]
    show (match (match scanEvents k t.reverse with
          | some r => some r
          | none => scanStack k s.transactions.reverse) with
        | some r => r
        | none => some (pyGet s.db k)) = _
    have hlt : latestTouching k [t] = (t.reverse.find? (touches k)) := by
      unfold latestTouching
      simp
    rw [hlt, scanEvents_eq_find]
    cases h : t.reverse.find? (touches k) with
    | none => rfl
    | some e => cases e <;> rfl

/-! ## Speculative count: invariants of txn_count -/

/-- IMDB.count as a reading of the whole state. -/
def count (s : IMDB) (v : String) : Int :=
  countsGet s.counts v

theorem countStep_delta (v : String) (acc : Int × List String) (e : Event) :
    (countStep v acc e).1 - ((countStep v acc e).2.length : Int) =
      acc.1 - (acc.2.length : Int) := by
  rcases acc with ⟨c, keys⟩
  cases e with
  | set k v2 =>
    simp only [countStep]
    split_ifs with h1 h2
    · have h' := List.length_erase_of_mem h1.1
      have hp := List.length_pos_of_mem h1.1
      simp only [h']
      omega
    · simp only [List.length_cons]
      push_cast
      ring
    · rfl
  | del k =>
    simp only [countStep]
    split_ifs with h1
    · have h' := List.length_erase_of_mem h1
      have hp := List.length_pos_of_mem h1
      simp only [h']
      omega
    · rfl

theorem foldl_countStep_delta (v : String) (l : List Event) (acc : Int × List String) :
    (l.foldl (countStep v) acc).1 - ((l.foldl (countStep v) acc).2.length : Int) =
      acc.1 - (acc.2.length : Int) := by
  induction l generalizing acc with
  | nil => rfl
  | cons e rest ih => rw [List.foldl_cons, ih, countStep_delta]

/-- C10: the speculative count never drops below the committed count. The
running count of txn_count always equals the committed count plus the size
of the tracked key set, because every decrement is guarded by membership in
that set and paired with the removal of the member. -/
theorem txn_count_ge_committed_count (s : IMDB) (v : String) :
    count s v ≤ txn_count s v := by
  have h := foldl_countStep_delta v s.transactions.flatten (countsGet s.counts v, [])
  rw [List.foldl_flatten] at h
  simp only [List.length_nil, Nat.cast_zero, sub_zero] at h
  unfold txn_count count
  omega

/-! ## txn_count ignores events of keys it never tracked -/

/-- Remove from every log the events touching one key. -/
def filterOutKey (k : String) (stack : List (List Event)) : List (List Event) :=
  stack.map (List.filter (fun e => !(eventKey e == k)))

theorem foldl_countStep_skip_key (v k : String) (l : List Event) :
    ∀ acc : Int × List String, k ∉ acc.2 → Event.set k v ∉ l →
      l.foldl (countStep v) acc =
        (l.filter (fun e => !(eventKey e == k))).foldl (countStep v) acc ∧
      k ∉ (l.foldl (countStep v) acc).2 := by
  induction l with
  | nil => exact fun acc hk _ => ⟨rfl, hk⟩
  | cons e rest ih =>
    intro acc hk hns
    have hns' : Event.set k v ∉ rest := fun h => hns (List.mem_cons_of_mem _ h)
    by_cases htouch : eventKey e = k
    · have hstep : countStep v acc e = acc := by
        cases e with
        | set k' v2 =>
          have hk' : k' = k := htouch
          subst hk'
          have hv2 : v2 ≠ v := fun h => by
            subst h
            exact hns (List.mem_cons_self _ _)
          simp only [countStep]
          rw [if_neg, if_neg]
          · exact fun h => hv2 h.2
          · exact fun h => hk h.1
        | del k' =>
          have hk' : k' = k := htouch
          subst hk'
          simp only [countStep]
          rw [if_neg]
          exact hk
      have hfilter : (e :: rest).filter (fun e => !(eventKey e == k)) =
          rest.filter (fun e => !(eventKey e == k)) := by
        simp [List.filter_cons, htouch]
      rw [List.foldl_cons, hstep, hfilter]
      exact ih acc hk hns'
    · have hkeep : (e :: rest).filter (fun e => !(eventKey e == k)) =
          e :: rest.filter (fun e => !(eventKey e == k)) := by
        simp [List.filter_cons, htouch]
      have hk2 : k ∉ (countStep v acc e).2 := by
        cases e with
        | set k' v2 =>
          have hk' : k' ≠ k := htouch
          simp only [countStep]
          split_ifs with h1 h2
          · exact fun h => hk (List.mem_of_mem_erase h)
          · intro h
            rcases List.mem_cons.mp h with h | h
            · exact hk' h.symm
            · exact hk h
          · exact hk
        | del k' =>
          simp only [countStep]
          split_ifs with h1
          · exact fun h => hk (List.mem_of_mem_erase h)
          · exact hk
      rw [List.foldl_cons, hkeep, List.foldl_cons]
      exact ih (countStep v acc e) hk2 hns'

/-- C3: a key whose committed value equals the target value contributes its
committed count, and the transaction events touching it (such as a SET that
overwrites it with a different value) neither decrement the speculative
count nor affect it at all, as long as no transaction event sets the key to
the target value: txn_count is unchanged when all events touching that key
are dropped from the stack. The key is never added to the tracked set, so
no decrement is ever performed for it. -/
theorem txn_count_ignores_committed_key_events
    (s : IMDB) (k v : String)
    (hcommitted : alookup s.db k = some v)
    (hnosetv : Event.set k v ∉ s.transactions.flatten)
    (hoverwritten : ∃ v2, v2 ≠ v ∧ Event.set k v2 ∈ s.transactions.flatten) :
    txn_count s v = txn_count { s with transactions := filterOutKey k s.transactions } v := by
  unfold txn_count
  simp only [← List.foldl_flatten]
  have h := foldl_countStep_skip_key v k s.transactions.flatten
    (countsGet s.counts v, []) (by simp) hnosetv
  calc (s.transactions.flatten.foldl (countStep v) (countsGet s.counts v, [])).1
      = ((s.transactions.flatten.filter (fun e => !(eventKey e == k))).foldl
          (countStep v) (countsGet s.counts v, [])).1 := by rw [h.1]
    _ = _ := by
        unfold filterOutKey
        rw [List.filter_flatten]

/-- Witness for C3: key a committed at value 1, overwritten to 2 inside the
transaction; dropping the overwrite event leaves the speculative count of
value 1 unchanged. -/
theorem txn_count_ignores_committed_key_events_witness :
    txn_count ⟨false, [("a", "1")], [[Event.set "a" "2"]], [("1", 1)]⟩ "1" =
      txn_count { (⟨false, [("a", "1")], [[Event.set "a" "2"]], [("1", 1)]⟩ : IMDB) with
        transactions := filterOutKey "a" [[Event.set "a" "2"]] } "1" :=
  txn_count_ignores_committed_key_events _ "a" "1" (by decide) (by decide)
    ⟨"2", by decide, by decide⟩

/-! ## Association-list lemmas -/

theorem alookup_mem {α : Type} {db : List (String × α)} {k : String} {v : α}
    (h : alookup db k = some v) : (k, v) ∈ db := by
  induction db with
  | nil => exact absurd h (by simp [alookup])
  | cons p rest ih =>
    rcases p with ⟨k', v'⟩
    by_cases hk : k' = k
    · subst hk
      simp [alookup] at h
      subst h
      exact List.mem_cons_self _ _
    · simp [alookup, hk] at h
      exact List.mem_cons_of_mem _ (ih h)

theorem alookup_none_not_mem {α : Type} {db : List (String × α)} {k : String}
    (h : alookup db k = none) : k ∉ db.map Prod.fst := by
  induction db with
  | nil => simp
  | cons p rest ih =>
    rcases p with ⟨k', v'⟩
    by_cases hk : k' = k
    · simp [alookup, hk] at h
    · simp [alookup, hk] at h
      simp only [List.map_cons, List.mem_cons]
      rintro (he | hmem)
      · exact hk he.symm
      · exact ih h hmem

theorem alookup_aupdate {α : Type} (l : List (String × α)) (x : String) (m : α)
    (w : String) :
    alookup (aupdate l x m) w = if x = w then some m else alookup l w := by
  induction l with
  | nil => simp [aupdate, alookup]
  | cons p rest ih =>
    rcases p with ⟨k', v'⟩
    by_cases hk : k' = x
    · subst hk
      by_cases hw : k' = w <;> simp [aupdate, alookup, hw]
    · by_cases hw : k' = w
      · subst hw
        have hx : ¬ x = k' := fun h => hk h.symm
        simp [aupdate, alookup, hk, hx]
      · simp [aupdate, alookup, hk, hw, ih]

theorem mem_aupdate {α : Type} {p : String × α} {l : List (String × α)}
    {k : String} {v : α} (h : p ∈ aupdate l k v) : p ∈ l ∨ p = (k, v) := by
  induction l with
  | nil => simpa [aupdate] using h
  | cons q rest ih =>
    rcases q with ⟨k', v'⟩
    by_cases hk : k' = k
    · simp [aupdate, hk] at h
      rcases h with h | h
      · exact Or.inr h
      · exact Or.inl (List.mem_cons_of_mem _ h)
    · simp [aupdate, hk] at h
      rcases h with h | h
      · exact Or.inl (by simp [h])
      · rcases ih h with h' | h'
        · exact Or.inl (List.mem_cons_of_mem _ h')
        · exact Or.inr h'

theorem map_fst_aupdate_present {α : Type} {l : List (String × α)} {k : String}
    {old : α} (v : α) (h : alookup l k = some old) :
    (aupdate l k v).map Prod.fst = l.map Prod.fst := by
  induction l with
  | nil => exact absurd h (by simp [alookup])
  | cons p rest ih =>
    rcases p with ⟨k', v'⟩
    by_cases hk : k' = k
    · subst hk
      simp [aupdate]
    · simp [alookup, hk] at h
      simp [aupdate, hk, ih h]

theorem aupdate_of_absent {α : Type} {l : List (String × α)} {k : String}
    (v : α) (h : alookup l k = none) : aupdate l k v = l ++ [(k, v)] := by
  induction l with
  | nil => rfl
  | cons p rest ih =>
    rcases p with ⟨k', v'⟩
    by_cases hk : k' = k
    · simp [alookup, hk] at h
    · simp [alookup, hk] at h
      simp [aupdate, hk, ih h]

theorem mem_of_mem_aerase {α : Type} {p : String × α} {l : List (String × α)}
    {k : String} (h : p ∈ aerase l k) : p ∈ l := by
  induction l with
  | nil => simpa [aerase] using h
  | cons q rest ih =>
    rcases q with ⟨k', v'⟩
    by_cases hk : k' = k
    · simp [aerase, hk] at h
      exact List.mem_cons_of_mem _ h
    · simp [aerase, hk] at h
      rcases h with h | h
      · exact List.mem_cons.mpr (Or.inl h)
      · exact List.mem_cons_of_mem _ (ih h)

theorem nodup_keys_aerase {α : Type} {l : List (String × α)} (k : String)
    (h : (l.map Prod.fst).Nodup) : ((aerase l k).map Prod.fst).Nodup := by
  induction l with
  | nil => simp [aerase]
  | cons p rest ih =>
    rcases p with ⟨k', v'⟩
    simp only [List.map_cons, List.nodup_cons] at h
    by_cases hk : k' = k
    · simpa [aerase, hk] using h.2
    · simp only [aerase, hk, if_false, List.map_cons, List.nodup_cons]
      refine ⟨fun hmem => ?_, ih h.2⟩
      rcases List.mem_map.mp hmem with ⟨q, hq, hfst⟩
      exact h.1 (List.mem_map.mpr ⟨q, mem_of_mem_aerase hq, hfst⟩)

/-! ## The count invariant for direct writes -/

/-- The number of entries holding a given value. With distinct keys (which
always holds when only set and delete touch the store) this is the number
of keys whose committed value is v. -/
def numWith (db : List (String × String)) (v : String) : Nat :=
  (db.filter (fun p => p.2 == v)).length

theorem numWith_cons (k x : String) (rest : List (String × String)) (w : String) :
    numWith ((k, x) :: rest) w = (if x = w then 1 else 0) + numWith rest w := by
  by_cases h : x = w <;> simp [numWith, List.filter_cons, h, Nat.add_comm]

theorem numWith_append (l1 l2 : List (String × String)) (w : String) :
    numWith (l1 ++ l2) w = numWith l1 w + numWith l2 w := by
  simp [numWith, List.filter_append]

theorem numWith_pos_of_mem {k x : String} {db : List (String × String)}
    (h : (k, x) ∈ db) : 0 < numWith db x := by
  have : (k, x) ∈ db.filter (fun p => p.2 == x) := by
    simp only [List.mem_filter]
    exact ⟨h, by simp⟩
  exact List.length_pos.mpr (fun he => by simp [he] at this)

theorem numWith_aupdate_present {db : List (String × String)} {k old : String}
    (v w : String) (h : alookup db k = some old) :
    numWith (aupdate db k v) w + (if old = w then 1 else 0) =
      numWith db w + (if v = w then 1 else 0) := by
  induction db with
  | nil => exact absurd h (by simp [alookup])
  | cons p rest ih =>
    rcases p with ⟨k', v'⟩
    by_cases hk : k' = k
    · subst hk
      simp [alookup] at h
      subst h
      simp only [aupdate, if_true, eq_self_iff_true]
      rw [numWith_cons, numWith_cons]
      split_ifs <;> omega
    · simp only [alookup, hk, if_false] at h
      simp only [aupdate, hk, if_false, numWith_cons]
      have := ih h
      omega

theorem numWith_aerase {db : List (String × String)} {k old : String}
    (w : String) (h : alookup db k = some old) :
    numWith (aerase db k) w + (if old = w then 1 else 0) = numWith db w := by
  induction db with
  | nil => exact absurd h (by simp [alookup])
  | cons p rest ih =>
    rcases p with ⟨k', v'⟩
    by_cases hk : k' = k
    · subst hk
      simp [alookup] at h
      subst h
      simp only [aerase, if_true, eq_self_iff_true]
      rw [numWith_cons]
      omega
    · simp only [alookup, hk, if_false] at h
      simp only [aerase, hk, if_false, numWith_cons]
      have := ih h
      omega

/-- countsGet over an in-place update. -/
theorem countsGet_aupdate (counts : List (String × Int)) (x : String) (m : Int)
    (w : String) :
    countsGet (aupdate counts x m) w = if x = w then m else countsGet counts w := by
  unfold countsGet
  rw [alookup_aupdate]
  by_cases h : x = w <;> simp [h, eq_comm]

theorem alookup_append {α : Type} (l1 l2 : List (String × α)) (k : String) :
    alookup (l1 ++ l2) k = (alookup l1 k).or (alookup l2 k) := by
  induction l1 with
  | nil => simp [alookup]
  | cons p rest ih =>
    rcases p with ⟨k', v'⟩
    by_cases hk : k' = k <;> simp [alookup, hk, ih]

/-- countsGet over the increment step of set. -/
theorem countsGet_bumpCount (counts : List (String × Int)) (v w : String) :
    countsGet (bumpCount counts v) w =
      if v = w then countsGet counts v + 1 else countsGet counts w := by
  unfold bumpCount
  cases h : alookup counts v with
  | some n =>
    rw [countsGet_aupdate]
    by_cases hw : v = w
    · subst hw
      simp [countsGet, h]
    · simp [hw]
  | none =>
    unfold countsGet
    rw [alookup_append]
    by_cases hw : v = w
    · subst hw
      simp [alookup, h]
    · simp [alookup, hw]

/-- The invariant the committed store keeps under direct (non-transaction)
writes with truthy values: all stored values are non-empty, keys are
distinct, and the counts index agrees with the entries. -/
def storeInv (db : List (String × String)) (counts : List (String × Int)) : Prop :=
  (∀ p ∈ db, p.2 ≠ "") ∧ (db.map Prod.fst).Nodup ∧
    ∀ v, countsGet counts v = (numWith db v : Int)

/-- Evaluation of storeSet on a fresh key. -/
theorem storeSet_absent {db : List (String × String)} {counts : List (String × Int)}
    {k : String} (v : String) (hdb : alookup db k = none) :
    storeSet db counts k v = some (aupdate db k v, bumpCount counts v) := by
  simp [storeSet, hdb]

/-- Evaluation of storeSet over a present key whose truthy old value the
counts index knows. -/
theorem storeSet_present {db : List (String × String)} {counts : List (String × Int)}
    {k old : String} {n : Int} (v : String) (hdb : alookup db k = some old)
    (hold : old ≠ "") (hco : alookup counts old = some n) :
    storeSet db counts k v =
      some (aupdate db k v, bumpCount (aupdate counts old (n - 1)) v) := by
  simp [storeSet, hdb, hco, pyTruthy, hold]

/-- Evaluation of storeDelete on an absent key. -/
theorem storeDelete_absent {db : List (String × String)} {counts : List (String × Int)}
    {k : String} (hdb : alookup db k = none) :
    storeDelete db counts k = (db, counts) := by
  simp [storeDelete, hdb]

/-- Evaluation of storeDelete on a present key whose value the counts index
knows. -/
theorem storeDelete_present {db : List (String × String)} {counts : List (String × Int)}
    {k old : String} {n : Int} (hdb : alookup db k = some old)
    (hco : alookup counts old = some n) :
    storeDelete db counts k = (aerase db k, aupdate counts old (n - 1)) := by
  simp [storeDelete, hdb, hco]

theorem storeSet_inv {db : List (String × String)} {counts : List (String × Int)}
    (k : String) {v : String} (hv : v ≠ "") (hinv : storeInv db counts) :
    ∃ db' counts', storeSet db counts k v = some (db', counts') ∧ storeInv db' counts' := by
  obtain ⟨hvals, hnodup, hcount⟩ := hinv
  cases hdb : alookup db k with
  | none =>
    refine ⟨aupdate db k v, bumpCount counts v, storeSet_absent v hdb, ?_, ?_, ?_⟩
    · intro p hp
      rcases mem_aupdate hp with h | h
      · exact hvals p h
      · rw [h]
        exact hv
    · rw [aupdate_of_absent v hdb, List.map_append]
      simp only [List.map_cons, List.map_nil]
      rw [List.nodup_append]
      exact ⟨hnodup, List.nodup_singleton k, by
        simp only [List.disjoint_singleton]
        exact alookup_none_not_mem hdb⟩
    · intro w
      rw [countsGet_bumpCount, aupdate_of_absent v hdb, numWith_append, numWith_cons]
      by_cases hw : v = w
      · subst hw
        rw [if_pos rfl, hcount v]
        simp [numWith]
      · rw [if_neg hw, hcount w]
        simp [numWith, hw]
  | some old =>
    have hmem := alookup_mem hdb
    have hold : old ≠ "" := hvals (k, old) hmem
    have hpos : 0 < numWith db old := numWith_pos_of_mem hmem
    obtain ⟨n, hco⟩ : ∃ n, alookup counts old = some n := by
      cases hcl : alookup counts old with
      | some n => exact ⟨n, rfl⟩
      | none =>
        have := hcount old
        rw [countsGet, hcl] at this
        simp at this
        omega
    have hn : n = (numWith db old : Int) := by
      have := hcount old
      rwa [countsGet, hco, Option.getD_some] at this
    refine ⟨aupdate db k v, bumpCount (aupdate counts old (n - 1)) v,
      storeSet_present v hdb hold hco, ?_, ?_, ?_⟩
    · intro p hp
      rcases mem_aupdate hp with h | h
      · exact hvals p h
      · rw [h]
        exact hv
    · rw [map_fst_aupdate_present v hdb]
      exact hnodup
    · intro w
      have hrel := numWith_aupdate_present v w hdb
      rw [countsGet_bumpCount, countsGet_aupdate, countsGet_aupdate, hcount w]
      by_cases hvw : v = w <;> by_cases how : old = w <;>
        by_cases hvo : old = v <;> simp only [hvw, how, hvo, if_true, if_false,
          hcount, hn] at hrel ⊢ <;> omega

theorem storeDelete_inv {db : List (String × String)} {counts : List (String × Int)}
    (k : String) (hinv : storeInv db counts) :
    storeInv (storeDelete db counts k).1 (storeDelete db counts k).2 := by
  obtain ⟨hvals, hnodup, hcount⟩ := hinv
  cases hdb : alookup db k with
  | none =>
    rw [storeDelete_absent hdb]
    exact ⟨hvals, hnodup, hcount⟩
  | some old =>
    have hmem := alookup_mem hdb
    have hpos : 0 < numWith db old := numWith_pos_of_mem hmem
    obtain ⟨n, hco⟩ : ∃ n, alookup counts old = some n := by
      cases hcl : alookup counts old with
      | some n => exact ⟨n, rfl⟩
      | none =>
        have := hcount old
        rw [countsGet, hcl] at this
        simp at this
        omega
    have hn : n = (numWith db old : Int) := by
      have := hcount old
      rwa [countsGet, hco, Option.getD_some] at this
    rw [storeDelete_present hdb hco]
    refine ⟨fun p hp => hvals p (mem_of_mem_aerase hp), nodup_keys_aerase k hnodup, ?_⟩
    intro w
    have hrel := numWith_aerase w hdb
    rw [countsGet_aupdate, hcount w]
    by_cases how : old = w <;> simp only [how, if_true, if_false, hn] at hrel ⊢ <;> omega

/-- A direct (non-transactional) write at the operation interface. -/
inductive DirectOp : Type where
  | dset (k v : String) : DirectOp
  | ddel (k : String) : DirectOp
deriving DecidableEq

/-- Whether an operation writes a truthy (non-empty) value; deletes always
qualify. -/
def valueTruthy : DirectOp → Bool
  | .dset _ v => pyTruthy v
  | .ddel _ => true

/-- Run a sequence of direct writes against the store, none reporting the
uncaught KeyError of set. -/
def runOps : List (String × String) × List (String × Int) → List DirectOp →
    Option (List (String × String) × List (String × Int))
  | st, [] => some st
  | st, .dset k v :: ops =>
    match storeSet st.1 st.2 k v with
    | none => none
    | some st' => runOps st' ops
  | st, .ddel k :: ops => runOps (storeDelete st.1 st.2 k) ops

theorem runOps_inv {st : List (String × String) × List (String × Int)}
    (ops : List DirectOp) (h : ∀ op ∈ ops, valueTruthy op = true)
    (hinv : storeInv st.1 st.2) :
    ∃ st', runOps st ops = some st' ∧ storeInv st'.1 st'.2 := by
  induction ops generalizing st with
  | nil => exact ⟨st, rfl, hinv⟩
  | cons op rest ih =>
    have hrest : ∀ op ∈ rest, valueTruthy op = true :=
      fun o ho => h o (List.mem_cons_of_mem _ ho)
    cases op with
    | dset k v =>
      have hv : v ≠ "" := by
        have := h _ (List.mem_cons_self _ _)
        simpa [valueTruthy, pyTruthy] using this
      obtain ⟨db', counts', heq, hinv'⟩ := storeSet_inv k hv hinv
      have hstep : runOps st (DirectOp.dset k v :: rest) = runOps (db', counts') rest := by
        simp [runOps, heq]
      rw [hstep]
      exact ih hrest hinv'
    | ddel k =>
      have hstep : runOps st (DirectOp.ddel k :: rest) =
          runOps (storeDelete st.1 st.2 k) rest := rfl
      rw [hstep]
      exact ih hrest (storeDelete_inv k hinv)

/-- C6, counterexample: the claimed invariant fails when an empty-string
value is written. set a (empty); set a x skips the decrement of the empty
value because the truthiness guard of set treats the old value as falsy, so
count of the empty value stays 1 although no key holds it. -/
theorem count_invariant_fails_empty_value :
    (runOps ([], []) [DirectOp.dset "a" "", DirectOp.dset "a" "x"]).map
        (fun st => (countsGet st.2 "", (numWith st.1 "" : Int)))
      = some (1, 0) ∧ (1 : Int) ≠ 0 := by
  refine ⟨rfl, by decide⟩

/-- C6, amended: after any sequence of direct (non-transactional) set and
delete operations starting from the empty store in which every set writes a
non-empty value, the run succeeds and for every value v the count index
equals the number of entries whose committed value is v (keys stay
distinct, so entries are keys). The restriction to non-empty values is
forced by the truthiness guard of set; the command dispatcher can only
produce non-empty values. -/
theorem count_invariant_nonempty_values (ops : List DirectOp)
    (h : ∀ op ∈ ops, valueTruthy op = true) :
    ∃ st, runOps ([], []) ops = some st ∧
      ((st.1.map Prod.fst).Nodup ∧
        ∀ v, countsGet st.2 v = (numWith st.1 v : Int)) := by
  obtain ⟨st, hrun, hinv⟩ := @runOps_inv ([], []) ops h
    ⟨by simp, by simp, fun v => by simp [countsGet, alookup, numWith]⟩
  exact ⟨st, hrun, hinv.2⟩

/-- Witness for C6 at a concrete operation sequence with truthy values. -/
theorem count_invariant_nonempty_values_witness :
    ∃ st, runOps ([], []) [DirectOp.dset "a" "5", DirectOp.dset "b" "5",
        DirectOp.dset "a" "6", DirectOp.ddel "b"] = some st ∧
      ((st.1.map Prod.fst).Nodup ∧
        ∀ v, countsGet st.2 v = (numWith st.1 v : Int)) :=
  count_invariant_nonempty_values _ (by decide)

/-! ## Writes inside a transaction never touch db or counts -/

/-- A command that the dispatcher treats as a write: its stripped,
upper-cased text starts with SET or with DELETE. -/
def isWriteCmd (c : String) : Bool :=
  "SET".toList.isPrefixOf (pyUpper (pyStrip c.toList)) ||
    "DELETE".toList.isPrefixOf (pyUpper (pyStrip c.toList))

theorem isPrefixOf_shape {p u : List Char} (h : p.isPrefixOf u = true) :
    ∃ r, u = p ++ r := by
  induction p generalizing u with
  | nil => exact ⟨u, rfl⟩
  | cons a p ih =>
    cases u with
    | nil => simp [List.isPrefixOf] at h
    | cons b u' =>
      rw [List.isPrefixOf_cons₂, Bool.and_eq_true, beq_iff_eq] at h
      obtain ⟨r, hr⟩ := ih h.2
      exact ⟨r, by rw [h.1, hr, List.cons_append]⟩

theorem addEventLast_eq (pre : List (List Event)) (t : List Event) (e : Event) :
    addEventLast (pre ++ [t]) e = pre ++ [t ++ [e]] := by
  induction pre with
  | nil => rfl
  | cons a pre ih =>
    cases pre with
    | nil => rfl
    | cons b pre' =>
      show a :: addEventLast ((b :: pre') ++ [t]) e = a :: ((b :: pre') ++ [t ++ [e]])
      rw [ih]

/-- Dispatching any write command while a transaction is open leaves db,
counts, the END flag, and the outer transaction logs untouched: it at most
appends one event to the innermost log (or prints a malformed-command
message). -/
theorem transition_write {s : IMDB} {c : String} (hw : isWriteCmd c = true)
    (hne : s.transactions ≠ []) :
    ∃ s' out, transition s c = some (s', out) ∧ s'.ended = s.ended ∧
      s'.db = s.db ∧ s'.counts = s.counts ∧ s'.transactions ≠ [] ∧
      s'.transactions.dropLast = s.transactions.dropLast := by
  have hempty : s.transactions.isEmpty = false := by
    cases htx : s.transactions with
    | nil => exact absurd htx hne
    | cons t ts => rfl
  obtain ⟨pre, t, hdecomp⟩ : ∃ pre t, s.transactions = pre ++ [t] :=
    ⟨_, _, (List.dropLast_append_getLast hne).symm⟩
  have haddpre : ∀ e, (addEventLast s.transactions e).dropLast = s.transactions.dropLast ∧
      addEventLast s.transactions e ≠ [] := by
    intro e
    rw [hdecomp, addEventLast_eq, List.dropLast_concat, List.dropLast_concat]
    exact ⟨rfl, by simp⟩
  rw [isWriteCmd, Bool.or_eq_true] at hw
  rcases hw with hw | hw
  · obtain ⟨r, hr⟩ := isPrefixOf_shape hw
    have hu : pyUpper (pyStrip c.toList) = 'S' :: 'E' :: 'T' :: r := hr
    have h1 : ¬(pyUpper (pyStrip c.toList) = "END".toList) := by
      rw [hu]
      simp
    have h2 : "GET".toList.isPrefixOf (pyUpper (pyStrip c.toList)) = false := by
      rw [hu]
      simp [List.isPrefixOf]
    have h3 : "SET".toList.isPrefixOf (pyUpper (pyStrip c.toList)) = true := by
      rw [hu]
      simp [List.isPrefixOf]
    simp only [transition, h1, h2, h3, if_false, if_true, Bool.false_eq_true,
      hempty, ite_false]
    cases hp : pySplitN (pyStrip c.toList) 2 with
    | nil => exact ⟨s, _, rfl, rfl, rfl, rfl, hne, rfl⟩
    | cons p0 tail0 =>
      cases tail0 with
      | nil => exact ⟨s, _, rfl, rfl, rfl, rfl, hne, rfl⟩
      | cons p1 tail1 =>
        cases tail1 with
        | nil => exact ⟨s, _, rfl, rfl, rfl, rfl, hne, rfl⟩
        | cons p2 tail2 =>
          cases tail2 with
          | nil =>
            refine ⟨_, _, rfl, rfl, rfl, rfl, ?_, ?_⟩
            · exact (haddpre _).2
            · exact (haddpre _).1
          | cons p3 tail3 => exact ⟨s, _, rfl, rfl, rfl, rfl, hne, rfl⟩
  · obtain ⟨r, hr⟩ := isPrefixOf_shape hw
    have hu : pyUpper (pyStrip c.toList) = 'D' :: 'E' :: 'L' :: 'E' :: 'T' :: 'E' :: r := hr
    have h1 : ¬(pyUpper (pyStrip c.toList) = "END".toList) := by
      rw [hu]
      simp
    have h2 : "GET".toList.isPrefixOf (pyUpper (pyStrip c.toList)) = false := by
      rw [hu]
      simp [List.isPrefixOf]
    have h3 : "SET".toList.isPrefixOf (pyUpper (pyStrip c.toList)) = false := by
      rw [hu]
      simp [List.isPrefixOf]
    have h4 : "DELETE".toList.isPrefixOf (pyUpper (pyStrip c.toList)) = true := by
      rw [hu]
      simp [List.isPrefixOf]
    simp only [transition, h1, h2, h3, h4, if_false, if_true, Bool.false_eq_true,
      hempty, ite_false]
    cases hp : pySplit c.toList with
    | nil => exact ⟨s, _, rfl, rfl, rfl, rfl, hne, rfl⟩
    | cons p0 tail0 =>
      cases tail0 with
      | nil => exact ⟨s, _, rfl, rfl, rfl, rfl, hne, rfl⟩
      | cons p1 tail1 =>
        cases tail1 with
        | nil =>
          refine ⟨_, _, rfl, rfl, rfl, rfl, ?_, ?_⟩
          · exact (haddpre _).2
          · exact (haddpre _).1
        | cons p2 tail2 => exact ⟨s, _, rfl, rfl, rfl, rfl, hne, rfl⟩

/-- Running a script of write commands with a transaction open preserves
db, counts, the END flag and the outer logs. -/
theorem runCmds_writes {cs : List String} (h : ∀ c ∈ cs, isWriteCmd c = true) :
    ∀ st : IMDB, st.ended = false → st.transactions ≠ [] →
      ∃ st' outs, runCmds st cs = some (st', outs) ∧ st'.ended = false ∧
        st'.db = st.db ∧ st'.counts = st.counts ∧ st'.transactions ≠ [] ∧
        st'.transactions.dropLast = st.transactions.dropLast := by
  induction cs with
  | nil => exact fun st hend hne => ⟨st, [], rfl, hend, rfl, rfl, hne, rfl⟩
  | cons c rest ih =>
    intro st hend hne
    obtain ⟨s1, out, htr, hend1, hdb1, hcounts1, hne1, hdrop1⟩ :=
      transition_write (h c (List.mem_cons_self _ _)) hne
    obtain ⟨st', outs, hrun, hend', hdb', hcounts', hne', hdrop'⟩ :=
      ih (fun c hc => h c (List.mem_cons_of_mem _ hc)) s1 (hend1.trans hend) hne1
    refine ⟨st', out ++ outs, ?_, hend', hdb'.trans hdb1, hcounts'.trans hcounts1,
      hne', hdrop'.trans hdrop1⟩
    simp [runCmds, hend, htr, hrun]

/-- Running a concatenated script is running its parts in sequence. -/
theorem runCmds_append (s : IMDB) (cs1 cs2 : List String) :
    runCmds s (cs1 ++ cs2) =
      match runCmds s cs1 with
      | none => none
      | some (s1, out1) =>
        match runCmds s1 cs2 with
        | none => none
        | some (s2, out2) => some (s2, out1 ++ out2) := by
  induction cs1 generalizing s with
  | nil =>
    show runCmds s cs2 = match runCmds s cs2 with
      | none => none
      | some (s2, out2) => some (s2, [] ++ out2)
    cases h : runCmds s cs2 with
    | none => rfl
    | some p =>
      rcases p with ⟨s2, out2⟩
      simp
  | cons c cs1 ih =>
    cases hb : s.ended with
    | true =>
      cases cs2 with
      | nil => simp [runCmds, hb]
      | cons c2 cs2' => simp [runCmds, hb]
    | false =>
      simp only [List.cons_append, runCmds, hb, Bool.false_eq_true, if_false]
      cases htr : transition s c with
      | none => rfl
      | some p =>
        rcases p with ⟨s', out⟩
        dsimp only
        simp only [List.append_eq]
        rw [ih s']
        cases h1 : runCmds s' cs1 with
        | none => rfl
        | some q =>
          rcases q with ⟨s1, out1⟩
          dsimp only
          cases h2 : runCmds s1 cs2 with
          | none => rfl
          | some q2 =>
            rcases q2 with ⟨s2, out2⟩
            simp [List.append_assoc]

/-- C7: executing BEGIN, then any sequence of SET/DELETE write commands
(each appended as an event to the new innermost log), then ROLLBACK leaves
the key-value entries, the valueCounts index, the transaction stack, and
the END flag exactly as they were before the BEGIN. -/
theorem begin_writes_rollback_restores (s : IMDB) (cs : List String)
    (hend : s.ended = false) (h : ∀ c ∈ cs, isWriteCmd c = true) :
    ∃ s' outs, runCmds s ("BEGIN" :: cs ++ ["ROLLBACK"]) = some (s', outs) ∧
      s'.db = s.db ∧ s'.counts = s.counts ∧ s'.transactions = s.transactions ∧
      s'.ended = s.ended := by
  have hbegin : transition s "BEGIN" =
      some ({ s with transactions := s.transactions ++ [[]] }, []) := rfl
  obtain ⟨st', outs, hrun, hend', hdb', hcounts', hne', hdrop'⟩ :=
    runCmds_writes h { s with transactions := s.transactions ++ [[]] } hend (by simp)
  have hdropBase : st'.transactions.dropLast = s.transactions := by
    rw [hdrop']
    exact List.dropLast_concat
  have hrb : transition st' "ROLLBACK" =
      some ({ st' with transactions := st'.transactions.dropLast }, []) :=
    (rollback_pops_or_reports st').2 hne'
  have hlast : runCmds st' ["ROLLBACK"] =
      some ({ st' with transactions := st'.transactions.dropLast }, []) := by
    simp [runCmds, hend', hrb]
  have hsplit := runCmds_append { s with transactions := s.transactions ++ [[]] } cs
    ["ROLLBACK"]
  rw [hrun] at hsplit
  dsimp only at hsplit
  rw [hlast] at hsplit
  simp only [List.append_nil] at hsplit
  refine ⟨{ st' with transactions := st'.transactions.dropLast }, outs, ?_, hdb', hcounts',
    hdropBase, hend'.trans hend.symm⟩
  rw [hend] at hbegin hsplit
  show runCmds s ("BEGIN" :: (cs ++ ["ROLLBACK"])) = _
  simp [runCmds, hend, hbegin, hsplit]

/-- Witness for C7 at the empty starting state with one SET and one DELETE
recorded inside the transaction. -/
theorem begin_writes_rollback_restores_witness :
    ∃ s' outs,
      runCmds initState ("BEGIN" :: ["SET a 1", "DELETE a"] ++ ["ROLLBACK"]) =
        some (s', outs) ∧
      s'.db = initState.db ∧ s'.counts = initState.counts ∧
      s'.transactions = initState.transactions ∧ s'.ended = initState.ended :=
  begin_writes_rollback_restores initState ["SET a 1", "DELETE a"] rfl (by decide)

end IMDBModel
